/-
Verification of the horizon/range calculator `find_horizon_range_network.py`
(distancetool).  The numeric code is shallowly embedded over `ℚ`; the
external collaborators that the program treats as black boxes (the LAL
frequency-domain waveform model, the cosmolopy distance/volume services, the
scipy `leastsq` root solve, the detector antenna-response service and the
real square root used by `numpy.sqrt`) are supplied as explicit function
parameters in the `ExtSvc` structure, so that every theorem quantifies over
them and witnesses can instantiate them with concrete computable data.
-/
import Mathlib

/-- The global SNR threshold `snr_th = 12.` of the source. -/
def snr_th : ℚ := 12

/-- The fixed frequency step `df = 1e-2` used throughout `find_horizon_range`. -/
def dfq : ℚ := 1/100

/-- The initial redshift guess `z0 = 0.1` of `find_horizon_range`. -/
def zInit : ℚ := 1/10

/-- External black-box services consumed by the program (spec section 1 lists
them as excluded collaborators): cosmological luminosity distance and
comoving volume (`cosmolopy.distance`), the `leastsq` root solve used by
`horizon_dist_eval` (as a function from the seed `z0` and the target
luminosity distance to the redshift it returns), the frequency-domain
waveform model (`lalsimulation.SimInspiralChooseFDWaveform`, returning the
plus/cross strain sample lists - complex samples as real/imaginary pairs -
together with `f0` and `deltaF` of the frequency grid), the antenna response
`lal.ComputeDetAMResponse` per detector identifier, and the real square root
applied by `numpy.sqrt` in `compute_horizonSNR`. -/
structure ExtSvc where
  lum_dist : ℚ → ℚ
  com_vol : ℚ → ℚ
  solveZ : ℚ → ℚ → ℚ
  wf : ℚ → ℚ → ℚ → ℚ → List (ℚ × ℚ) × List (ℚ × ℚ) × ℚ × ℚ
  resp : Char → ℚ → ℚ → ℚ → ℚ × ℚ
  sqrtq : ℚ → ℚ

/-- The per-call inputs of `find_horizon_range`: the component masses, the
detector network (a list of one-character detector identifiers), the loaded
two-column noise tables (one per network position, `loadtxt` of
`asdfile[detector]`), the sky/orientation sample read from
`horizon_coord_<pwfile>.txt` and the antenna-pattern table read from
`pw_<pwfile>.txt`. -/
structure Inputs where
  m1 : ℚ
  m2 : ℚ
  network : List Char
  tables : List (List (ℚ × ℚ))
  ra : ℚ
  dec : ℚ
  psi : ℚ
  iota : ℚ
  Ptable : List (ℚ × ℚ)

/-- Squared magnitude of a complex strain sample, `abs(h)**2`. -/
def normSq (c : ℚ × ℚ) : ℚ := c.1 * c.1 + c.2 * c.2

/-- numpy boolean-mask selection `xs[mask]`: keep the entries whose mask bit
is true.  Built on `zip`, so a mask shorter than the array silently selects
only from the masked prefix - the behaviour of the numpy version the source
targets, and the situation the volume loop of the source actually creates. -/
def maskSelect {α : Type} (xs : List α) (mask : List Bool) : List α :=
  ((xs.zip mask).filter (fun p => p.2)).map (fun p => p.1)

/-- `logical_and(freqs>minimum_freq[d], freqs<maximum_freq[d])`. -/
def bandMask (freqs : List ℚ) (lo hi : ℚ) : List Bool :=
  freqs.map (fun f => decide (lo < f) && decide (f < hi))

/-- Smallest element of a list (`numpy.min`); junk value 0 on the empty list,
which the source would reject with an exception. -/
def listMin : List ℚ → ℚ
  | [] => 0
  | x :: xs => xs.foldl min x

/-- Largest element of a list (`numpy.max`); junk value 0 on the empty list. -/
def listMax : List ℚ → ℚ
  | [] => 0
  | x :: xs => xs.foldl max x

/-- `max` of a list as an `Option` (`numpy.max` raising on empty input is
modelled as `none`). -/
def listMaxOpt : List ℚ → Option ℚ
  | [] => none
  | x :: xs => some (xs.foldl max x)

/-- Piecewise-linear interpolation through a table of `(x, y)` points sorted
by `x`, the evaluation rule of `scipy.interpolate.interp1d`: walk the
segments and evaluate the first segment whose right end is at or beyond the
query point (queries beyond the last point extrapolate with the last
segment; the program only ever queries points inside the table range). -/
def interp1d : List (ℚ × ℚ) → ℚ → ℚ
  | [], _ => 0
  | [p], _ => p.2
  | p :: q :: rest, x =>
    if x ≤ q.1 then p.2 + (q.2 - p.2) * (x - p.1) / (q.1 - p.1)
    else interp1d (q :: rest) x

/-- The antenna-pattern interpolant
`P=interp1d(w_sample,P_sample,bounds_error=False,fill_value=0.0)`:
zero outside the sampled domain, linear interpolation inside. -/
def interpP (pts : List (ℚ × ℚ)) (x : ℚ) : ℚ :=
  match pts with
  | [] => 0
  | p :: rest =>
    if x < p.1 ∨ ((p :: rest).getLast (by simp)).1 < x then 0
    else interp1d (p :: rest) x

/-- Cumulative sums of a list, `numpy.cumsum`. -/
def cumsum (l : List ℚ) : List ℚ :=
  (l.scanl (fun a b => a + b) 0).drop 1

/-- The noise model built by the loader loop of `find_horizon_range`
(lines 107-113): per network position the usable frequency bounds
`minimum_freq[d] = maximum(10., min(input_freq))`,
`maximum_freq[d] = minimum(5000., max(input_freq))`, and the dictionary
`psdinterp_dict` keyed by detector identifier holding the data of
`interp1d(input_freq, strain**2)` - the noise table with the strain column
squared.  A repeated identifier overwrites its dictionary entry. -/
structure NoiseModel where
  minF : List ℚ
  maxF : List ℚ
  dict : Char → List (ℚ × ℚ)

/-- `psdinterp_dict` after the loader loop: fold of dictionary updates over
the (identifier, table) pairs in network order, squaring the strain column. -/
def psdDict (network : List Char) (tables : List (List (ℚ × ℚ))) :
    Char → List (ℚ × ℚ) :=
  (network.zip tables).foldl
    (fun acc p => Function.update acc p.1 (p.2.map (fun q => (q.1, q.2 * q.2))))
    (fun _ => [])

/-- The loader loop of `find_horizon_range` (lines 107-113). -/
def loadNoise (network : List Char) (tables : List (List (ℚ × ℚ))) : NoiseModel :=
  { minF := tables.map (fun t => max 10 (listMin (t.map (fun p => p.1))))
    maxF := tables.map (fun t => min 5000 (listMax (t.map (fun p => p.1))))
    dict := psdDict network tables }

/-- `get_htildas`: call the waveform black box and build the frequency grid
`freqs = [f0 + i*deltaF for i in range(len(data))]`. -/
def get_htildas (E : ExtSvc) (m1 m2 dist iota : ℚ) :
    List (ℚ × ℚ) × List (ℚ × ℚ) × List ℚ :=
  let w := E.wf m1 m2 dist iota
  (w.1, w.2.1, (List.range w.1.length).map
    (fun (i : ℕ) => w.2.2.1 + (i : ℚ) * w.2.2.2))

/-- Projection of the plus/cross strains onto a detector's antenna
responses, `fplus*hplus_tilda + fcross*hcross_tilda` on complex samples. -/
def projStrain (r : ℚ × ℚ) (hp hc : List (ℚ × ℚ)) : List (ℚ × ℚ) :=
  List.zipWith (fun a b => (r.1 * a.1 + r.2 * b.1, r.1 * a.2 + r.2 * b.2)) hp hc

/-- `compute_horizonSNR` (lines 89-95): loop over detector positions,
project the strains onto the antenna responses, select the valid band,
accumulate `4.*df*sum(abs(h_tilda[fsel[detector]])**2/psd_interp[detector])`
and take the square root of the total. -/
def compute_horizonSNR (E : ExtSvc) (hp hc : List (ℚ × ℚ)) (network : List Char)
    (ra dec psi : ℚ) (psd_interp : List (List ℚ)) (fsel : List (List Bool))
    (df : ℚ) : ℚ :=
  E.sqrtq ((List.range network.length).foldl
    (fun snrsq d =>
      snrsq + 4 * df *
        ((List.zipWith (fun hv p => normSq hv / p)
          (maskSelect
            (projStrain (E.resp (network.getD d ' ') ra dec psi) hp hc)
            (fsel.getD d []))
          (psd_interp.getD d [])).sum))
    0)

/-- The per-detector `fsel`/`psd_interp` build loop (lines 119-122 and
132-135): masks from each position's own frequency bounds, PSD values by
evaluating the dictionary interpolant of the position's identifier on the
selected frequencies. -/
def buildFselPsd (network : List Char) (N : NoiseModel) (freqs : List ℚ) :
    List (List Bool) × List (List ℚ) :=
  let fsel := (List.range network.length).map
    (fun d => bandMask freqs (N.minF.getD d 0) (N.maxF.getD d 0))
  let psd := (List.range network.length).map
    (fun d => (maskSelect freqs (fsel.getD d [])).map
      (interp1d (N.dict (network.getD d ' '))))
  (fsel, psd)

/-- One full SNR evaluation at a redshift/distance pair: waveform at
redshifted masses `(1+z)*m1, (1+z)*m2` and the given distance, fresh band
masks and PSD values, then `compute_horizonSNR`.  Returns the SNR together
with the `fsel`/`psd_interp` lists it built (the loop keeps them around). -/
def snrEval (E : ExtSvc) (I : Inputs) (N : NoiseModel) (df z dist : ℚ) :
    ℚ × (List (List Bool) × List (List ℚ)) :=
  let w := get_htildas E ((1 + z) * I.m1) ((1 + z) * I.m2) dist I.iota
  let c := buildFselPsd I.network N w.2.2
  (compute_horizonSNR E w.1 w.2.1 I.network I.ra I.dec I.psi c.2 c.1 df, c)

/-- `findzfromDL` (line 42). -/
def findzfromDL (E : ExtSvc) (z DL : ℚ) : ℚ := DL - E.lum_dist z

/-- `horizon_dist_eval` (lines 47-50): inverse-square distance guess, then
the `leastsq` root solve of `findzfromDL` seeded at `z0`. -/
def horizon_dist_eval (E : ExtSvc) (orig_dist snr z0 : ℚ) : ℚ × ℚ :=
  let guess_dist := orig_dist * snr / snr_th
  (E.solveZ z0 guess_dist, guess_dist)

/-- The `(input_dist, input_snr, input_redshift)` triple the solver loop
maintains. -/
structure SolverState where
  dist : ℚ
  snr : ℚ
  z : ℚ
deriving DecidableEq

/-- One body execution of the solver `while` loop (lines 127-140). -/
def solverStep (E : ExtSvc) (I : Inputs) (N : NoiseModel) (df : ℚ)
    (st : SolverState) : SolverState × (List (List Bool) × List (List ℚ)) :=
  let g := horizon_dist_eval E st.dist st.snr st.z
  let s := snrEval E I N df g.1 g.2
  (⟨g.2, s.1, g.1⟩, s.2)

/-- The solver `while` loop (line 127): keep stepping while
`abs(guess_snr-snr_th)>snr_th*0.001`, modelled with explicit fuel since the
source loop is unguarded; `none` models non-termination within the fuel. -/
def solverLoop (E : ExtSvc) (I : Inputs) (N : NoiseModel) (df : ℚ) :
    ℕ → SolverState → ℚ → (List (List Bool) × List (List ℚ)) →
    Option (SolverState × (List (List Bool) × List (List ℚ)))
  | 0, st, gs, c =>
    if |gs - snr_th| > snr_th * (1/1000) then none else some (st, c)
  | n + 1, st, gs, c =>
    if |gs - snr_th| > snr_th * (1/1000) then
      let s := solverStep E I N df st
      solverLoop E I N df n s.1 s.1.snr s.2
    else some (st, c)

/-- The initial solver state (lines 114-123): `z0=0.1`, its luminosity
distance, and the SNR evaluated there, together with the `fsel`/`psd_interp`
lists of that evaluation. -/
def solverInit (E : ExtSvc) (I : Inputs) :
    SolverState × (List (List Bool) × List (List ℚ)) :=
  let N := loadNoise I.network I.tables
  let d0 := E.lum_dist zInit
  let s := snrEval E I N dfq zInit d0
  (⟨d0, s.1, zInit⟩, s.2)

/-- The whole horizon-solver phase of `find_horizon_range` (lines 114-141):
initial state, then the loop started with `guess_snr=0`. -/
def solverPhase (E : ExtSvc) (I : Inputs) (fuel : ℕ) :
    Option (SolverState × (List (List Bool) × List (List ℚ))) :=
  solverLoop E I (loadNoise I.network I.tables) dfq fuel
    (solverInit E I).1 0 (solverInit E I).2

/-- The shell redshifts
`z = linspace(horizon_redshift, 0, 100, endpoint=False)`:
`z[i] = horizon - i*(horizon/100)`. -/
def shellList (h : ℚ) : List ℚ :=
  (List.range 100).map (fun (i : ℕ) => h - (i : ℚ) * (h / 100))

/-- The per-shell SNR of the volume loop (lines 152-156).  The source keeps
appending fresh per-shell masks and PSD arrays to the `fsel`/`psd_interp`
lists left over from the solver loop, but `compute_horizonSNR` reads only
indices `0..len(network)-1` of those lists, which forever hold the entries
built on the final solver iteration's frequency grid; the appended entries
are never read.  The model therefore evaluates `compute_horizonSNR` with the
solver-phase carry unchanged. -/
def shellSNR (E : ExtSvc) (I : Inputs) (df : ℚ)
    (c : List (List Bool) × List (List ℚ)) (z : ℚ) : ℚ :=
  let w := get_htildas E ((1 + z) * I.m1) ((1 + z) * I.m2) (E.lum_dist z) I.iota
  compute_horizonSNR E w.1 w.2.1 I.network I.ra I.dec I.psi c.2 c.1 df

/-- The `unit_volume` array of the volume loop (lines 150-158). -/
def unitVolumes (E : ExtSvc) (I : Inputs) (df h : ℚ)
    (c : List (List Bool) × List (List ℚ)) : List ℚ :=
  let dz := |h| / 100
  (shellList h).map (fun zi =>
    let osnr := shellSNR E I df c zi
    (E.com_vol (zi + dz / 2) - E.com_vol (zi - dz / 2)) / (1 + zi) *
      interpP I.Ptable (snr_th / osnr))

/-- The selection `z[where(cumsum(unit_volume)>=frac*vol_sum)]` of the
volume stage: the shell redshifts whose cumulative (horizon-to-shell) volume
reaches the given fraction of the total. -/
def zCandidates (E : ExtSvc) (I : Inputs) (df h : ℚ)
    (c : List (List Bool) × List (List ℚ)) (frac : ℚ) : List ℚ :=
  (((shellList h).zip (cumsum (unitVolumes E I df h c))).filter
    (fun p => decide (frac * (unitVolumes E I df h c).sum ≤ p.2))).map
    (fun p => p.1)

/-- The volume/range stage of `find_horizon_range` (lines 144-164): total
volume, cumulative-sum percentile redshifts
`z50=max(z[where(cumsum(unit_volume)>=0.5*vol_sum)])`,
`z90=max(z[where(cumsum(unit_volume)>=0.1*vol_sum)])`, and the output tuple.
`numpy.max` on an empty selection raises; that is modelled as `none`. -/
def volumeStage (E : ExtSvc) (I : Inputs) (df h : ℚ)
    (c : List (List Bool) × List (List ℚ)) : Option (ℚ × ℚ × ℚ × ℚ × ℚ) :=
  match listMaxOpt (zCandidates E I df h c (1/2)),
      listMaxOpt (zCandidates E I df h c (1/10)) with
  | some z50, some z90 =>
    some (h, E.lum_dist h, E.lum_dist z50, E.lum_dist z90,
      (unitVolumes E I df h c).sum)
  | _, _ => none

/-- `find_horizon_range` (lines 99-164): solver phase, then the volume/range
stage run at the converged horizon redshift with the leftover
`fsel`/`psd_interp` lists. -/
def find_horizon_range (E : ExtSvc) (I : Inputs) (fuel : ℕ) :
    Option (ℚ × ℚ × ℚ × ℚ × ℚ) :=
  match solverPhase E I fuel with
  | none => none
  | some (st, c) => volumeStage E I dfq st.z c

/-- Re-evaluation of the network SNR at a redshift and its cosmological
luminosity distance, exactly the evaluation the solver loop performs
(lines 131-136) but at `dist = lum_dist z`. -/
def recomputeSNR (E : ExtSvc) (I : Inputs) (z : ℚ) : ℚ :=
  (snrEval E I (loadNoise I.network I.tables) dfq z (E.lum_dist z)).1

/-- Newton iteration for the natural square root with explicit fuel
(structural recursion, so the kernel can evaluate it). -/
def sqrtIter : ℕ → ℕ → ℕ → ℕ
  | 0, _, g => g
  | f + 1, n, g =>
    let g' := (g + n / g) / 2
    if g' < g then sqrtIter f n g' else g

/-- Natural square root (floor) via `sqrtIter`; 128 Newton steps are ample
for every number a concrete run produces. -/
def natSqrt (n : ℕ) : ℕ := if n ≤ 1 then n else sqrtIter 128 n (n / 2)

/-- Exact square root on `ℚ`: the rational square root when the reduced
numerator and denominator are perfect squares, junk value 0 otherwise.  Used
to instantiate the `sqrtq` black box on concrete runs whose intermediate
`snrsq` values are perfect rational squares, where it agrees with the real
square root. -/
def exactSqrt (x : ℚ) : ℚ :=
  if 0 ≤ x.num ∧ natSqrt x.num.toNat * natSqrt x.num.toNat = x.num.toNat ∧
      natSqrt x.den * natSqrt x.den = x.den
  then mkRat (Int.ofNat (natSqrt x.num.toNat)) (natSqrt x.den) else 0

/-- A concrete noise table spanning the whole usable band with unit strain. -/
def tblStd : List (ℚ × ℚ) := [(10, 1), (5000, 1)]

/-- A concrete noise table lying entirely below 10 Hz. -/
def tblLow : List (ℚ × ℚ) := [(5, 1), (8, 1)]

/-- A flat antenna-pattern table: `P(w) = 1` on `[0, 1]`, 0 outside. -/
def Pflat : List (ℚ × ℚ) := [(0, 1), (1, 1)]

/-- A strictly sorted two-row noise table with non-unit strain values. -/
def tblA : List (ℚ × ℚ) := [(20, 3), (100, 5)]

/-- A second strictly sorted two-row noise table, distinct from `tblA`. -/
def tblB : List (ℚ × ℚ) := [(30, 7), (90, 9)]

/-- Concrete external services for closed runs: linear luminosity distance
`100*z` with its exact inverse as the root solve, comoving volume
`(1+z)^2/2`, a single-sample waveform at 100 Hz whose amplitude scales as
the inverse distance (so the SNR is exactly `60/dist`), unit plus response,
and the exact rational square root. -/
def cSvc : ExtSvc :=
  { lum_dist := fun z => 100 * z
    com_vol := fun z => (1 + z)^2 / 2
    solveZ := fun _ DL => DL / 100
    wf := fun _ _ dist _ => ([(300 / dist, 0)], [(0, 0)], 100, 1)
    resp := fun _ _ _ _ => (1, 0)
    sqrtq := exactSqrt }

/-- Concrete inputs: a single H detector with the standard table and the
flat antenna-pattern table. -/
def inpH : Inputs :=
  ⟨30, 30, ['H'], [tblStd], 0, 0, 0, 0, Pflat⟩

/-- `maskSelect` on matched cons cells. -/
theorem maskSelect_cons {α : Type} (x : α) (xs : List α) (b : Bool)
    (bs : List Bool) :
    maskSelect (x :: xs) (b :: bs) =
      if b then x :: maskSelect xs bs else maskSelect xs bs := by
  by_cases hb : b <;>
    simp [maskSelect, hb, List.zip_cons_cons, List.filter_cons,
      List.zip_eq_zipWith]

/-- `maskSelect` with an empty mask selects nothing. -/
theorem maskSelect_nil {α : Type} (xs : List α) : maskSelect xs [] = [] := by
  simp [maskSelect]

/-- A left fold that only accumulates additions computes the sum of the
mapped list. -/
theorem foldl_add_map (f : ℕ → ℚ) (l : List ℕ) (a : ℚ) :
    l.foldl (fun acc d => acc + f d) a = a + (l.map f).sum := by
  induction l generalizing a with
  | nil => simp
  | cons x xs ih => simp [ih, add_assoc]

/-- Summing a function mapped over `List.range` is the `Finset.range` sum. -/
theorem sum_map_range (f : ℕ → ℚ) (n : ℕ) :
    ((List.range n).map f).sum = ∑ i ∈ Finset.range n, f i := by
  induction n with
  | zero => simp
  | succ m ih => rw [List.range_succ, Finset.sum_range_succ, ← ih]; simp

/-- Indexing a function mapped over `List.range` below the length. -/
theorem getD_map_range {α : Type} (f : ℕ → α) (dflt : α) {n i : ℕ}
    (h : i < n) : ((List.range n).map f).getD i dflt = f i := by
  rw [List.getD_eq_getElem?_getD, List.getElem?_eq_getElem (by simpa using h)]
  simp

/-- `List.getD` below the length is `getElem`. -/
theorem getD_lt {α : Type} (l : List α) (dflt : α) {i : ℕ}
    (h : i < l.length) : l.getD i dflt = l[i] := by
  rw [List.getD_eq_getElem?_getD, List.getElem?_eq_getElem h]
  rfl

/-- A left `max` fold lands in the seeded list. -/
theorem foldl_max_mem (x : ℚ) (xs : List ℚ) : xs.foldl max x ∈ x :: xs := by
  induction xs generalizing x with
  | nil => simp
  | cons y ys ih =>
    rw [List.foldl_cons]
    rcases List.mem_cons.1 (ih (max x y)) with hm | hm
    · rw [hm]
      rcases max_choice x y with hxy | hxy <;> rw [hxy] <;> simp
    · simp [hm]

/-- A left `max` fold bounds the seed and every list element from above. -/
theorem foldl_max_bound (x : ℚ) (xs : List ℚ) :
    x ≤ xs.foldl max x ∧ ∀ y ∈ xs, y ≤ xs.foldl max x := by
  induction xs generalizing x with
  | nil => simp
  | cons z zs ih =>
    rw [List.foldl_cons]
    rcases ih (max x z) with ⟨h1, h2⟩
    refine ⟨le_trans (le_max_left x z) h1, ?_⟩
    intro y hy
    rcases List.mem_cons.1 hy with hy | hy
    · subst hy
      exact le_trans (le_max_right x y) h1
    · exact h2 y hy

/-- The `some` result of `listMaxOpt` is a member of the list and an upper
bound for it. -/
theorem listMaxOpt_spec {l : List ℚ} {m : ℚ} (h : listMaxOpt l = some m) :
    m ∈ l ∧ ∀ x ∈ l, x ≤ m := by
  match l with
  | [] => simp [listMaxOpt] at h
  | x :: xs =>
    simp only [listMaxOpt, Option.some.injEq] at h
    subst h
    refine ⟨foldl_max_mem x xs, ?_⟩
    intro y hy
    rcases List.mem_cons.1 hy with hy | hy
    · exact hy ▸ (foldl_max_bound x xs).1
    · exact (foldl_max_bound x xs).2 y hy

/-- Membership in the projection of a filtered zip, phrased by index. -/
theorem mem_selProj {a : List ℚ} {b : List ℚ} {p : ℚ × ℚ → Bool} {x : ℚ} :
    x ∈ ((a.zip b).filter p).map (fun q => q.1) ↔
      ∃ i, i < a.length ∧ i < b.length ∧ a.getD i 0 = x ∧
        p (a.getD i 0, b.getD i 0) = true := by
  constructor
  · intro hx
    rcases List.mem_map.1 hx with ⟨q, hq, hqx⟩
    rcases List.mem_filter.1 hq with ⟨hqz, hqp⟩
    rcases List.mem_iff_getElem.1 hqz with ⟨i, hi, hqi⟩
    have hia : i < a.length := List.lt_length_left_of_zip hi
    have hib : i < b.length := List.lt_length_right_of_zip hi
    have hzi : (a.zip b)[i] = (a[i], b[i]) := List.getElem_zip
    rw [hzi] at hqi
    refine ⟨i, hia, hib, ?_, ?_⟩
    · rw [getD_lt a 0 hia, ← hqx, ← hqi]
    · rw [getD_lt a 0 hia, getD_lt b 0 hib]
      rw [← hqi] at hqp
      simpa using hqp
  · rintro ⟨i, hia, hib, hax, hp⟩
    have hiz : i < (a.zip b).length := by
      rw [List.length_zip]; omega
    have hzi : (a.zip b)[i] = (a[i], b[i]) := List.getElem_zip
    refine List.mem_map.2 ⟨(a.zip b)[i],
      List.mem_filter.2 ⟨List.mem_iff_getElem.2 ⟨i, hiz, rfl⟩, ?_⟩, ?_⟩
    · rw [hzi]
      rw [getD_lt a 0 hia, getD_lt b 0 hib] at hp
      simpa using hp
    · rw [hzi]
      rw [getD_lt a 0 hia] at hax
      simpa using hax

/-- `cumsum` preserves length. -/
theorem cumsum_length (l : List ℚ) : (cumsum l).length = l.length := by
  simp [cumsum, List.length_scanl]

/-- Any property preserved by `solverStep` and holding at entry holds at the
state the solver loop returns. -/
theorem solverLoop_inv (E : ExtSvc) (I : Inputs) (N : NoiseModel) (df : ℚ)
    (P : SolverState → Prop)
    (hstep : ∀ st, P ((solverStep E I N df st).1)) :
    ∀ fuel st gs c st' c', P st →
      solverLoop E I N df fuel st gs c = some (st', c') → P st' := by
  intro fuel
  induction fuel with
  | zero =>
    intro st gs c st' c' hP hrun
    simp only [solverLoop] at hrun
    split at hrun
    · exact Option.noConfusion hrun
    · obtain ⟨h1, h2⟩ := Prod.mk.inj (Option.some.inj hrun)
      exact h1 ▸ hP
  | succ n ih =>
    intro st gs c st' c' hP hrun
    simp only [solverLoop] at hrun
    split at hrun
    · exact ih _ _ _ _ _ (hstep st) hrun
    · obtain ⟨h1, h2⟩ := Prod.mk.inj (Option.some.inj hrun)
      exact h1 ▸ hP

/-- When the loop is entered with `guess_snr` equal to the state's own SNR
(as every recursive call does), the returned state satisfies the exit
condition `abs(guess_snr-snr_th) <= snr_th*0.001`. -/
theorem solverLoop_exit (E : ExtSvc) (I : Inputs) (N : NoiseModel) (df : ℚ) :
    ∀ fuel st c st' c',
      solverLoop E I N df fuel st st.snr c = some (st', c') →
      |st'.snr - snr_th| ≤ snr_th * (1/1000) := by
  intro fuel
  induction fuel with
  | zero =>
    intro st c st' c' hrun
    simp only [solverLoop] at hrun
    split at hrun
    · exact Option.noConfusion hrun
    · rename_i hcond
      obtain ⟨h1, h2⟩ := Prod.mk.inj (Option.some.inj hrun)
      exact h1 ▸ le_of_not_lt hcond
  | succ n ih =>
    intro st c st' c' hrun
    simp only [solverLoop] at hrun
    split at hrun
    · exact ih _ _ _ _ hrun
    · rename_i hcond
      obtain ⟨h1, h2⟩ := Prod.mk.inj (Option.some.inj hrun)
      exact h1 ▸ le_of_not_lt hcond

/-- The initial loop entry has `guess_snr = 0`, which always fails the exit
test, so a successful `solverPhase` both ran at least one step and returned
a state satisfying the exit condition. -/
theorem solverPhase_exit (E : ExtSvc) (I : Inputs) (fuel : ℕ)
    (st : SolverState) (c : List (List Bool) × List (List ℚ))
    (hrun : solverPhase E I fuel = some (st, c)) :
    |st.snr - snr_th| ≤ snr_th * (1/1000) := by
  have hc0 : |(0:ℚ) - snr_th| > snr_th * (1/1000) := by
    rw [snr_th, abs_of_nonpos] <;> norm_num
  match fuel with
  | 0 =>
    rw [solverPhase] at hrun
    simp only [solverLoop] at hrun
    split at hrun
    · exact Option.noConfusion hrun
    · rename_i hcond
      exact absurd hc0 hcond
  | n + 1 =>
    rw [solverPhase] at hrun
    simp only [solverLoop] at hrun
    split at hrun
    · exact solverLoop_exit E I (loadNoise I.network I.tables) dfq n _ _ _ _ hrun
    · rename_i hcond
      exact absurd hc0 hcond

/-- A successful `solverPhase` returns a state that is reachable from the
initial state by `solverStep`s, hence satisfies any `solverStep`-preserved
property that holds initially. -/
theorem solverPhase_inv (E : ExtSvc) (I : Inputs) (P : SolverState → Prop)
    (hinit : P (solverInit E I).1)
    (hstep : ∀ st, P ((solverStep E I (loadNoise I.network I.tables) dfq st).1))
    (fuel : ℕ) (st : SolverState) (c : List (List Bool) × List (List ℚ))
    (hrun : solverPhase E I fuel = some (st, c)) : P st := by
  rw [solverPhase] at hrun
  exact solverLoop_inv E I (loadNoise I.network I.tables) dfq P hstep
    fuel _ _ _ _ _ hinit hrun

/-- Successful results of `volumeStage` decompose into the two cumulative
percentile redshifts and the output tuple built from them. -/
theorem volumeStage_some (E : ExtSvc) (I : Inputs) (df h : ℚ)
    (c : List (List Bool) × List (List ℚ)) (out : ℚ × ℚ × ℚ × ℚ × ℚ)
    (hrun : volumeStage E I df h c = some out) :
    ∃ z50 z90,
      listMaxOpt (zCandidates E I df h c (1/2)) = some z50 ∧
      listMaxOpt (zCandidates E I df h c (1/10)) = some z90 ∧
      out = (h, E.lum_dist h, E.lum_dist z50, E.lum_dist z90,
        (unitVolumes E I df h c).sum) := by
  rw [volumeStage.eq_def] at hrun
  generalize hg50 : listMaxOpt (zCandidates E I df h c (1/2)) = o50 at hrun
  generalize hg90 : listMaxOpt (zCandidates E I df h c (1/10)) = o90 at hrun
  match o50, o90, hrun with
  | some z50, some z90, hrun =>
    exact ⟨z50, z90, rfl, rfl, (Option.some.inj hrun).symm⟩

/-- Successful results of `find_horizon_range` decompose into a successful
solver phase followed by a successful volume stage at the returned horizon
redshift. -/
theorem find_some (E : ExtSvc) (I : Inputs) (fuel : ℕ)
    (out : ℚ × ℚ × ℚ × ℚ × ℚ)
    (hrun : find_horizon_range E I fuel = some out) :
    ∃ st c, solverPhase E I fuel = some (st, c) ∧
      volumeStage E I dfq st.z c = some out := by
  rw [find_horizon_range] at hrun
  rcases hsp : solverPhase E I fuel with - | sc
  · rw [hsp] at hrun
    exact Option.noConfusion hrun
  · obtain ⟨st, c⟩ := sc
    rw [hsp] at hrun
    exact ⟨st, c, rfl, hrun⟩

/-- The state transition of the solver loop, as a plain function on states
(the carried `fsel`/`psd_interp` lists dropped). -/
def stepFn (E : ExtSvc) (I : Inputs) : SolverState → SolverState :=
  fun st => (solverStep E I (loadNoise I.network I.tables) dfq st).1

/-- A `solverStep` re-solves the redshift for the guessed distance, so under
an exact root solve the new state is distance-consistent. -/
theorem stepFn_consistent (E : ExtSvc) (I : Inputs)
    (hsolve : ∀ a DL, E.lum_dist (E.solveZ a DL) = DL) (st : SolverState) :
    E.lum_dist (stepFn E I st).z = (stepFn E I st).dist := by
  simp [stepFn, solverStep, horizon_dist_eval, snrEval, hsolve]

/-- The initial solver state pairs `z0` with its own luminosity distance. -/
theorem solverInit_consistent (E : ExtSvc) (I : Inputs) :
    E.lum_dist (solverInit E I).1.z = (solverInit E I).1.dist := by
  simp [solverInit]

/-- C9: at every iteration of the horizon solver the maintained
(redshift, luminosity distance) pair is mutually consistent - after each
SNR-driven distance guess the redshift is re-solved so that its luminosity
distance under the fixed cosmology equals the guessed distance.  Stated for
every iterate of the loop body from the initial state, and for the state a
successful solver phase returns; the `leastsq` root solve is assumed exact
(it is the black-box cosmology inversion service). -/
theorem C9_state_consistency (E : ExtSvc) (I : Inputs)
    (hsolve : ∀ a DL, E.lum_dist (E.solveZ a DL) = DL) :
    (∀ k : ℕ, E.lum_dist ((stepFn E I)^[k] (solverInit E I).1).z =
      ((stepFn E I)^[k] (solverInit E I).1).dist) ∧
    (∀ fuel st c, solverPhase E I fuel = some (st, c) →
      E.lum_dist st.z = st.dist) := by
  constructor
  · intro k
    match k with
    | 0 => exact solverInit_consistent E I
    | k + 1 =>
      rw [Function.iterate_succ_apply']
      exact stepFn_consistent E I hsolve _
  · intro fuel st c hrun
    exact solverPhase_inv E I (fun s => E.lum_dist s.z = s.dist)
      (solverInit_consistent E I) (fun s => stepFn_consistent E I hsolve s)
      fuel st c hrun

/-- Witness for C9 at the concrete run: the returned solver state of
`solverPhase cSvc inpH` pairs redshift 1/20 with distance 5 = 100*(1/20). -/
theorem C9_witness : cSvc.lum_dist ((1:ℚ)/20) = (5:ℚ) :=
  (C9_state_consistency cSvc inpH
    (fun _ DL => by
      show (100:ℚ) * (DL / 100) = DL
      field_simp)).2 9 ⟨5, 12, 1/20⟩ ([[true]], [[1]])
    (by with_unfolding_all decide)

/-- The SNR stored in a state reached by the solver is the SNR evaluated at
that state's redshift and distance, and redshift and distance are
consistent: both facts are preserved by `solverStep` under an exact root
solve and hold at the initial state. -/
theorem solverPhase_snr_eval (E : ExtSvc) (I : Inputs)
    (hsolve : ∀ a DL, E.lum_dist (E.solveZ a DL) = DL)
    (fuel : ℕ) (st : SolverState) (c : List (List Bool) × List (List ℚ))
    (hrun : solverPhase E I fuel = some (st, c)) :
    st.snr = (snrEval E I (loadNoise I.network I.tables) dfq st.z st.dist).1 ∧
      E.lum_dist st.z = st.dist := by
  refine solverPhase_inv E I (fun s =>
    s.snr = (snrEval E I (loadNoise I.network I.tables) dfq s.z s.dist).1 ∧
      E.lum_dist s.z = s.dist) ⟨?_, solverInit_consistent E I⟩
    (fun s => ⟨rfl, stepFn_consistent E I hsolve s⟩) fuel st c hrun
  rfl

/-- C1 (amended): whenever `find_horizon_range` returns, re-evaluating the
network SNR at the returned horizon redshift and its luminosity distance
recovers the threshold up to the loop tolerance - at most (not strictly
below) 0.1 percent relative error, since the loop exits on
`abs(guess_snr-snr_th) <= snr_th*0.001`.  The `leastsq` root solve is
assumed exact. -/
theorem C1_horizon_snr_tolerance (E : ExtSvc) (I : Inputs) (fuel : ℕ)
    (out : ℚ × ℚ × ℚ × ℚ × ℚ)
    (hsolve : ∀ a DL, E.lum_dist (E.solveZ a DL) = DL)
    (hrun : find_horizon_range E I fuel = some out) :
    |recomputeSNR E I out.1 - snr_th| / snr_th ≤ 1/1000 := by
  obtain ⟨st, c, hsp, hvs⟩ := find_some E I fuel out hrun
  obtain ⟨z50, z90, -, -, hout⟩ := volumeStage_some E I dfq st.z c out hvs
  obtain ⟨hsnr, hcons⟩ := solverPhase_snr_eval E I hsolve fuel st c hsp
  have hexit := solverPhase_exit E I fuel st c hsp
  have hre : recomputeSNR E I out.1 = st.snr := by
    rw [hout]
    show (snrEval E I (loadNoise I.network I.tables) dfq st.z
      (E.lum_dist st.z)).1 = st.snr
    rw [hcons, hsnr]
  rw [hre]
  simp only [snr_th] at hexit ⊢
  rw [div_le_iff₀ (by norm_num : (0:ℚ) < 12)]
  linarith

set_option maxRecDepth 100000 in
/-- Witness for C1 (amended) at the concrete run of `cSvc`/`inpH`, whose
horizon redshift is 1/20. -/
theorem C1_witness :
    |recomputeSNR cSvc inpH ((1:ℚ)/20) - snr_th| / snr_th ≤ 1/1000 :=
  C1_horizon_snr_tolerance cSvc inpH 9 (1/20, 5, 51/20, 91/20, 1/20)
    (fun _ DL => by
      show (100:ℚ) * (DL / 100) = DL
      field_simp)
    (by with_unfolding_all decide)

/-- External services hitting the convergence tolerance exactly: the SNR
evaluated at the distance guess of the first loop iteration lands exactly at
`12.012 = snr_th*(1+1/1000)` (an admissible waveform amplitude under the
real square root, mirrored by a `sqrtq` table that agrees with the real
square root on every value of the run), so the loop exits with relative
error exactly 0.1 percent, not strictly below it. -/
def cSvcB : ExtSvc :=
  { cSvc with
    wf := fun _ _ dist _ =>
      if dist = 10 then ([(30, 0)], [(0, 0)], 100, 1)
      else if dist = 5 then ([(21 * 143 / 50, 0)], [(0, 0)], 100, 1)
      else ([(5, 0)], [(0, 0)], 100, 1)
    sqrtq := fun q =>
      if q = 36 then 6
      else if q = 1 then 1
      else if q.num = 9018009 ∧ q.den = 62500 then mkRat (Int.ofNat 3003) 250
      else 0 }

set_option maxRecDepth 40000 in
/-- C1 counterexample: a run that returns with the recomputed horizon SNR at
relative error exactly 0.001, falsifying the claim's strict inequality
`|SNR - snr_th| / snr_th < 0.001`; the source loop exits on the non-strict
`abs(guess_snr-snr_th) <= snr_th*0.001`. -/
theorem C1_counterexample :
    find_horizon_range cSvcB inpH 9 = some (1/20, 5, 5, 5, 1/2000) ∧
    ¬ (|recomputeSNR cSvcB inpH ((1:ℚ)/20) - snr_th| / snr_th < 1/1000) := by
  with_unfolding_all decide

/-- Membership in the shell redshift grid, by index. -/
theorem shellList_mem {h z : ℚ} :
    z ∈ shellList h ↔ ∃ i : ℕ, i < 100 ∧ z = h - i * (h / 100) := by
  rw [shellList, List.mem_map]
  constructor
  · rintro ⟨i, hi, hiz⟩
    exact ⟨i, List.mem_range.1 hi, hiz.symm⟩
  · rintro ⟨i, hi, hiz⟩
    exact ⟨i, List.mem_range.2 hi, hiz.symm⟩

/-- Every shell redshift lies between `h/100` and `h` when the horizon
redshift `h` is nonnegative. -/
theorem shellList_bounds {h z : ℚ} (hh : 0 ≤ h) (hz : z ∈ shellList h) :
    h / 100 ≤ z ∧ z ≤ h := by
  rcases shellList_mem.1 hz with ⟨i, hi, rfl⟩
  have hc : (i : ℚ) ≤ 99 := by exact_mod_cast Nat.lt_succ_iff.mp hi
  have hc0 : (0 : ℚ) ≤ (i : ℚ) := by positivity
  have h100 : (0 : ℚ) ≤ h / 100 := by positivity
  constructor
  · nlinarith
  · nlinarith

/-- Under a monotone comoving volume (on nonnegative redshifts) and a
nonnegative antenna-pattern interpolant, every per-shell volume element is
nonnegative when the horizon redshift is nonnegative. -/
theorem unitVolumes_nonneg (E : ExtSvc) (I : Inputs) (df h : ℚ)
    (c : List (List Bool) × List (List ℚ)) (hh : 0 ≤ h)
    (hvol : ∀ a b : ℚ, 0 ≤ a → a ≤ b → E.com_vol a ≤ E.com_vol b)
    (hP : ∀ w, 0 ≤ interpP I.Ptable w) :
    ∀ u ∈ unitVolumes E I df h c, 0 ≤ u := by
  intro u hu
  rw [unitVolumes] at hu
  rcases List.mem_map.1 hu with ⟨z, hz, rfl⟩
  obtain ⟨hzlo, -⟩ := shellList_bounds hh hz
  rw [abs_of_nonneg hh]
  have h100 : (0 : ℚ) ≤ h / 100 := by positivity
  have hd1 : 0 ≤ z - h / 100 / 2 := by linarith
  have hd2 : z - h / 100 / 2 ≤ z + h / 100 / 2 := by linarith
  have hmono := hvol (z - h / 100 / 2) (z + h / 100 / 2) hd1 hd2
  have hz1 : (0 : ℚ) < 1 + z := by linarith
  apply mul_nonneg
  · apply div_nonneg
    · linarith
    · linarith
  · exact hP _

/-- Membership in a `zCandidates` selection, unfolded to the index level. -/
theorem zCandidates_mem {E : ExtSvc} {I : Inputs} {df h : ℚ}
    {c : List (List Bool) × List (List ℚ)} {frac z : ℚ} :
    z ∈ zCandidates E I df h c frac ↔
      ∃ i, i < (shellList h).length ∧
        i < (cumsum (unitVolumes E I df h c)).length ∧
        (shellList h).getD i 0 = z ∧
        frac * (unitVolumes E I df h c).sum ≤
          (cumsum (unitVolumes E I df h c)).getD i 0 := by
  rw [zCandidates, mem_selProj]
  constructor
  · rintro ⟨i, h1, h2, h3, h4⟩
    exact ⟨i, h1, h2, h3, of_decide_eq_true h4⟩
  · rintro ⟨i, h1, h2, h3, h4⟩
    exact ⟨i, h1, h2, h3, decide_eq_true h4⟩

/-- A `zCandidates` member is a shell redshift. -/
theorem zCandidates_subset_shell {E : ExtSvc} {I : Inputs} {df h : ℚ}
    {c : List (List Bool) × List (List ℚ)} {frac z : ℚ}
    (hz : z ∈ zCandidates E I df h c frac) : z ∈ shellList h := by
  rcases zCandidates_mem.1 hz with ⟨i, h1, -, h3, -⟩
  rw [getD_lt _ _ h1] at h3
  exact h3 ▸ List.getElem_mem h1

/-- C2 (amended): on every successful run with a nonnegative horizon
redshift, a monotone luminosity distance, a comoving volume monotone on
nonnegative redshifts and a nonnegative antenna-pattern interpolant, the
returned distances are ordered the other way round from the claim:
50-percent distance ≤ 90-percent distance ≤ horizon distance. -/
theorem C2_distance_ordering (E : ExtSvc) (I : Inputs) (fuel : ℕ)
    (out : ℚ × ℚ × ℚ × ℚ × ℚ)
    (hrun : find_horizon_range E I fuel = some out)
    (hz : 0 ≤ out.1)
    (hlum : ∀ a b : ℚ, a ≤ b → E.lum_dist a ≤ E.lum_dist b)
    (hvol : ∀ a b : ℚ, 0 ≤ a → a ≤ b → E.com_vol a ≤ E.com_vol b)
    (hP : ∀ w, 0 ≤ interpP I.Ptable w) :
    out.2.2.1 ≤ out.2.2.2.1 ∧ out.2.2.2.1 ≤ out.2.1 := by
  obtain ⟨st, c, hsp, hvs⟩ := find_some E I fuel out hrun
  obtain ⟨z50, z90, h50, h90, hout⟩ := volumeStage_some E I dfq st.z c out hvs
  have hzh : 0 ≤ st.z := by rw [hout] at hz; exact hz
  have huv := unitVolumes_nonneg E I dfq st.z c hzh hvol hP
  have hvsum : 0 ≤ (unitVolumes E I dfq st.z c).sum := List.sum_nonneg huv
  obtain ⟨hm50, -⟩ := listMaxOpt_spec h50
  obtain ⟨hm90, hb90⟩ := listMaxOpt_spec h90
  have hsub : z50 ∈ zCandidates E I dfq st.z c (1/10) := by
    rcases zCandidates_mem.1 hm50 with ⟨i, h1, h2, h3, h4⟩
    refine zCandidates_mem.2 ⟨i, h1, h2, h3, le_trans ?_ h4⟩
    nlinarith
  have h5090 : z50 ≤ z90 := hb90 z50 hsub
  have hz90h : z90 ≤ st.z :=
    (shellList_bounds hzh (zCandidates_subset_shell hm90)).2
  rw [hout]
  exact ⟨hlum _ _ h5090, hlum _ _ hz90h⟩

set_option maxRecDepth 40000 in
/-- Witness for C2 (amended) at the concrete `cSvc`/`inpH` run. -/
theorem C2_witness :
    ((51:ℚ)/20 ≤ 91/20) ∧ ((91:ℚ)/20 ≤ 5) :=
  C2_distance_ordering cSvc inpH 9 (1/20, 5, 51/20, 91/20, 1/20)
    (by with_unfolding_all decide)
    (by norm_num)
    (fun a b hab => by
      show (100:ℚ) * a ≤ 100 * b
      linarith)
    (fun a b ha hab => by
      show (1 + a)^2 / 2 ≤ (1 + b)^2 / 2
      nlinarith)
    (fun w => by
      show (0:ℚ) ≤ if w < 0 ∨ 1 < w then 0
        else if w ≤ 1 then 1 + (1 - 1) * (w - 0) / (1 - 0) else 1
      split
      · exact le_refl 0
      · split <;> norm_num)

set_option maxRecDepth 40000 in
/-- C2 counterexample: a successful run returning 50-percent distance 51/20
and 90-percent distance 91/20, so the claimed ordering
`distance_90pct ≤ distance_50pct` fails. -/
theorem C2_counterexample :
    find_horizon_range cSvc inpH 9 = some (1/20, 5, 51/20, 91/20, 1/20) ∧
    ¬ ((91:ℚ)/20 ≤ 51/20) := by
  with_unfolding_all decide

/-- `getLastD` of a nonempty list is its `getLast`. -/
theorem getLastD_cons_eq_getLast {α : Type} (p : α) (rest : List α) (d : α) :
    (p :: rest).getLastD d = (p :: rest).getLast (by simp) := by
  induction rest generalizing p d with
  | nil => rfl
  | cons q qs ih =>
    rw [List.getLastD_cons, ih q p]
    exact (List.getLast_cons (by simp)).symm

/-- The antenna-pattern interpolant is zero strictly outside the sampled
domain (`bounds_error=False, fill_value=0.0`). -/
theorem interpP_outside (pts : List (ℚ × ℚ)) (x : ℚ) (hne : pts ≠ [])
    (hx : x < (pts.headD (0, 0)).1 ∨ (pts.getLastD (0, 0)).1 < x) :
    interpP pts x = 0 := by
  match pts with
  | [] => exact absurd rfl hne
  | p :: rest =>
    rw [interpP]
    rw [if_pos]
    rw [← getLastD_cons_eq_getLast p rest (0, 0)]
    exact hx

/-- The spec's (claimed) selection rule for the 90 percent redshift: the
most distant shell whose cumulative volume from the horizon reaches 90
percent of the total.  Modelled from the spec: the source instead uses the
threshold `0.1*vol_sum` at this place. -/
def z90_claimed (E : ExtSvc) (I : Inputs) (df h : ℚ)
    (c : List (List Bool) × List (List ℚ)) : Option ℚ :=
  listMaxOpt (zCandidates E I df h c (9/10))

set_option maxRecDepth 40000 in
/-- C3 counterexample: on a concrete successful run the returned 90 percent
distance is 91/20, while the claim's rule (cumulative reaching 90 percent of
the total) would select shell redshift 11/2000 with luminosity distance
11/20. -/
theorem C3_counterexample :
    find_horizon_range cSvc inpH 9 = some (1/20, 5, 51/20, 91/20, 1/20) ∧
    z90_claimed cSvc inpH dfq (1/20) ([[true]], [[1]]) = some (11/2000) ∧
    cSvc.lum_dist (11/2000) = 11/20 ∧ ((91:ℚ)/20 ≠ 11/20) := by
  with_unfolding_all decide

/-- `z` is the most distant (largest) shell redshift whose cumulative
(horizon-to-shell) volume reaches the threshold. -/
def isTopCrossing (zs cums : List ℚ) (thr z : ℚ) : Prop :=
  (∃ i, i < zs.length ∧ i < cums.length ∧ zs.getD i 0 = z ∧
    thr ≤ cums.getD i 0) ∧
  (∀ j, j < zs.length → j < cums.length → thr ≤ cums.getD j 0 →
    zs.getD j 0 ≤ z)

/-- C3 (amended): the returned 50 and 90 percent distances are the
luminosity distances of the most distant shells at which the cumulative
probability-weighted volume (scanning from the horizon toward zero) reaches
`0.5*vol_sum` and `0.1*vol_sum` respectively - the 90 percent selection uses
the 0.1 threshold of the source, not the claimed 0.9. -/
theorem C3_percentile_selection (E : ExtSvc) (I : Inputs) (df h : ℚ)
    (c : List (List Bool) × List (List ℚ)) (out : ℚ × ℚ × ℚ × ℚ × ℚ)
    (hrun : volumeStage E I df h c = some out) :
    ∃ z50 z90 : ℚ,
      out.2.2.1 = E.lum_dist z50 ∧ out.2.2.2.1 = E.lum_dist z90 ∧
      isTopCrossing (shellList h) (cumsum (unitVolumes E I df h c))
        ((1/2) * (unitVolumes E I df h c).sum) z50 ∧
      isTopCrossing (shellList h) (cumsum (unitVolumes E I df h c))
        ((1/10) * (unitVolumes E I df h c).sum) z90 := by
  obtain ⟨z50, z90, h50, h90, hout⟩ := volumeStage_some E I df h c out hrun
  refine ⟨z50, z90, by rw [hout], by rw [hout], ?_, ?_⟩
  · obtain ⟨hm, hb⟩ := listMaxOpt_spec h50
    constructor
    · exact zCandidates_mem.1 hm
    · intro j h1 h2 h3
      exact hb _ (zCandidates_mem.2 ⟨j, h1, h2, rfl, h3⟩)
  · obtain ⟨hm, hb⟩ := listMaxOpt_spec h90
    constructor
    · exact zCandidates_mem.1 hm
    · intro j h1 h2 h3
      exact hb _ (zCandidates_mem.2 ⟨j, h1, h2, rfl, h3⟩)

set_option maxRecDepth 40000 in
/-- Witness for C3 (amended) at the concrete `cSvc` volume stage. -/
theorem C3_witness :
    ∃ z50 z90 : ℚ,
      (51:ℚ)/20 = cSvc.lum_dist z50 ∧ (91:ℚ)/20 = cSvc.lum_dist z90 ∧
      isTopCrossing (shellList (1/20))
        (cumsum (unitVolumes cSvc inpH dfq (1/20) ([[true]], [[1]])))
        ((1/2) * (unitVolumes cSvc inpH dfq (1/20) ([[true]], [[1]])).sum)
        z50 ∧
      isTopCrossing (shellList (1/20))
        (cumsum (unitVolumes cSvc inpH dfq (1/20) ([[true]], [[1]])))
        ((1/10) * (unitVolumes cSvc inpH dfq (1/20) ([[true]], [[1]])).sum)
        z90 :=
  C3_percentile_selection cSvc inpH dfq (1/20) ([[true]], [[1]])
    (1/20, 5, 51/20, 91/20, 1/20) (by with_unfolding_all decide)

/-- C7: on every successful volume stage with positive horizon redshift,
the integration grid is exactly 100 equal-width shells ordered from the
horizon down toward (and excluding) zero; the returned total volume is the
sum over shells of `(V_c(z_i+dz/2)-V_c(z_i-dz/2))/(1+z_i)*P(w_i)`; and the
detection-probability interpolant evaluates to zero outside the sampled
table domain. -/
theorem C7_volume_estimator (E : ExtSvc) (I : Inputs) (df h : ℚ)
    (c : List (List Bool) × List (List ℚ)) (out : ℚ × ℚ × ℚ × ℚ × ℚ)
    (hrun : volumeStage E I df h c = some out) (hh : 0 < h) :
    (shellList h).length = 100 ∧
    (∀ i : ℕ, i < 100 → (shellList h).getD i 0 = h - (i:ℚ) * (h/100)) ∧
    (∀ z ∈ shellList h, 0 < z ∧ z ≤ h) ∧
    out.2.2.2.2 = ∑ i ∈ Finset.range 100,
      ((E.com_vol ((h - (i:ℚ) * (h/100)) + (|h|/100)/2)
        - E.com_vol ((h - (i:ℚ) * (h/100)) - (|h|/100)/2))
        / (1 + (h - (i:ℚ) * (h/100)))
        * interpP I.Ptable (snr_th / shellSNR E I df c (h - (i:ℚ) * (h/100)))) ∧
    (∀ x : ℚ, I.Ptable ≠ [] →
      (x < (I.Ptable.headD (0, 0)).1 ∨ (I.Ptable.getLastD (0, 0)).1 < x) →
      interpP I.Ptable x = 0) := by
  obtain ⟨z50, z90, -, -, hout⟩ := volumeStage_some E I df h c out hrun
  refine ⟨by simp [shellList], ?_, ?_, ?_, ?_⟩
  · intro i hi
    rw [shellList, getD_map_range _ _ hi]
  · intro z hz
    obtain ⟨h1, h2⟩ := shellList_bounds (le_of_lt hh) hz
    have : (0:ℚ) < h / 100 := by positivity
    exact ⟨lt_of_lt_of_le this h1, h2⟩
  · rw [hout]
    show (unitVolumes E I df h c).sum = _
    rw [unitVolumes, shellList, List.map_map, sum_map_range]
    rfl
  · intro x hne hx
    exact interpP_outside I.Ptable x hne hx

set_option maxRecDepth 40000 in
/-- Witness for C7 at the concrete `cSvc` volume stage. -/
theorem C7_witness : (shellList ((1:ℚ)/20)).length = 100 :=
  (C7_volume_estimator cSvc inpH dfq (1/20) ([[true]], [[1]])
    (1/20, 5, 51/20, 91/20, 1/20) (by with_unfolding_all decide)
    (by norm_num)).1

/-- External services whose waveforms away from the horizon have two
frequency samples: the horizon-iteration grid puts its second sample at
5100 Hz (outside the 5000 Hz band edge, mask `[true, false]`), while the
lower-redshift shell grids put both samples inside the band.  The per-shell
SNR of the source then differs from a fresh evaluation, because the volume
loop reads the mask and PSD entries left over from the final solver
iteration. -/
def cSvc4 : ExtSvc :=
  { cSvc with
    wf := fun _ _ dist _ =>
      if dist = 10 then ([(30, 0)], [(0, 0)], 100, 1)
      else if dist = 5 then ([(60, 0), (99, 0)], [(0, 0), (0, 0)], 100, 5000)
      else ([(15, 0), (20, 0)], [(0, 0), (0, 0)], 100, 50) }

set_option maxRecDepth 40000 in
/-- C4: the volume loop evaluates every shell with the `fsel`/`psd_interp`
entries of the final solver iteration (the lists are appended to but never
reset, and `compute_horizonSNR` reads only indices `0..n-1`).  At the
concrete run of `cSvc4`, shell redshift 99/2000 has per-shell SNR 3 under
the source's stale masks, while the same evaluation with masks and PSD from
the shell's own frequency grid (as the claim states) yields 5. -/
theorem C4_stale_band_selection :
    find_horizon_range cSvc4 inpH 9 = some (1/20, 5, 5, 5, 1/2000) ∧
    solverPhase cSvc4 inpH 9 =
      some (⟨5, 12, 1/20⟩, ([[true, false]], [[1]])) ∧
    shellSNR cSvc4 inpH dfq ([[true, false]], [[1]]) (99/2000) = 3 ∧
    recomputeSNR cSvc4 inpH (99/2000) = 5 ∧ (3:ℚ) ≠ 5 := by
  with_unfolding_all decide

/-- Inputs with a second (L) detector whose noise file lies entirely below
10 Hz, so its valid frequency band is empty. -/
def inpHL : Inputs :=
  ⟨30, 30, ['H', 'L'], [tblStd, tblLow], 0, 0, 0, 0, Pflat⟩

set_option maxRecDepth 40000 in
/-- C5: a detector whose valid frequency band excludes every waveform
sample contributes exactly zero to the network SNR and the run completes
silently: the two-detector run with an empty-band L detector returns the
same successful result as the run without that detector, instead of raising
an error (the L band is indeed empty: its maximum usable frequency 8 lies
below its minimum usable frequency 10). -/
theorem C5_silent_empty_band :
    find_horizon_range cSvc inpHL 9 = find_horizon_range cSvc inpH 9 ∧
    find_horizon_range cSvc inpHL 9 = some (1/20, 5, 51/20, 91/20, 1/20) ∧
    (loadNoise inpHL.network inpHL.tables).maxF.getD 1 0 <
      (loadNoise inpHL.network inpHL.tables).minF.getD 1 0 := by
  with_unfolding_all decide

/-- Selecting from data and grid with the same grid-predicate mask and
pairing the results is filtering the zipped lists by the predicate on the
grid value. -/
theorem sel_zip {α : Type} (F : α → ℚ → ℚ) (g : ℚ → ℚ) (pred : ℚ → Bool) :
    ∀ (xs : List α) (ys : List ℚ), xs.length = ys.length →
    List.zipWith F (maskSelect xs (ys.map pred))
      ((maskSelect ys (ys.map pred)).map g) =
    ((xs.zip ys).filter (fun p => pred p.2)).map (fun p => F p.1 (g p.2)) := by
  intro xs
  induction xs with
  | nil =>
    intro ys h
    simp [maskSelect]
  | cons x xs ih =>
    intro ys h
    match ys with
    | [] => simp at h
    | y :: ys' =>
      have hlen : xs.length = ys'.length := by simpa using h
      rw [List.map_cons, maskSelect_cons, maskSelect_cons, List.zip_cons_cons,
        List.filter_cons]
      by_cases hpy : pred y
      · rw [if_pos hpy, if_pos hpy, List.map_cons, List.zipWith_cons_cons,
          if_pos (by simpa using hpy), List.map_cons, ih ys' hlen]
      · rw [if_neg hpy, if_neg hpy, if_neg (by simpa using hpy), ih ys' hlen]

/-- The network SNR formula exactly as the spec describes the SNR
integrator: for each detector project the plus/cross strains onto the
antenna responses, keep the frequency samples strictly inside the
detector's valid band, divide the squared magnitude by the PSD interpolant
at the same frequencies, accumulate `4*df*Σ`, sum over detectors and take
the square root. -/
def snrFormulaSpec (E : ExtSvc) (I : Inputs) (N : NoiseModel) (df : ℚ)
    (hp hc : List (ℚ × ℚ)) (freqs : List ℚ) : ℚ :=
  E.sqrtq (∑ d ∈ Finset.range I.network.length,
    4 * df *
      ((((projStrain (E.resp (I.network.getD d ' ') I.ra I.dec I.psi)
            hp hc).zip freqs).filter
        (fun p => decide (N.minF.getD d 0 < p.2) &&
          decide (p.2 < N.maxF.getD d 0))).map
        (fun p => normSq p.1 /
          interp1d (N.dict (I.network.getD d ' ')) p.2)).sum)

/-- C6: the SNR evaluation of the program equals the spec formula - the
square root of the sum over detectors of `4*df*Σ` of band-restricted
`|F+*h+ + Fx*hx|^2 / PSD(f)` terms - whenever the plus and cross strain
lists have equal length (as the waveform model guarantees). -/
theorem C6_snr_formula (E : ExtSvc) (I : Inputs) (N : NoiseModel)
    (df z dist : ℚ) (hp hc : List (ℚ × ℚ)) (freqs : List ℚ)
    (hw : get_htildas E ((1 + z) * I.m1) ((1 + z) * I.m2) dist I.iota =
      (hp, hc, freqs))
    (hlen : hc.length = hp.length) :
    (snrEval E I N df z dist).1 = snrFormulaSpec E I N df hp hc freqs := by
  have hfl : freqs.length = hp.length := by
    have h1 := congrArg (fun t => t.2.2.length) hw
    have h2 := congrArg (fun t => t.1.length) hw
    simp only [get_htildas] at h1 h2
    simp at h1 h2
    omega
  rw [snrEval, hw]
  show compute_horizonSNR E hp hc I.network I.ra I.dec I.psi
    (buildFselPsd I.network N freqs).2 (buildFselPsd I.network N freqs).1 df =
    snrFormulaSpec E I N df hp hc freqs
  rw [compute_horizonSNR, snrFormulaSpec]
  congr 1
  have key := foldl_add_map (fun d =>
    4 * df *
      (List.zipWith (fun hv p => normSq hv / p)
        (maskSelect
          (projStrain (E.resp (I.network.getD d ' ') I.ra I.dec I.psi) hp hc)
          ((buildFselPsd I.network N freqs).1.getD d []))
        ((buildFselPsd I.network N freqs).2.getD d [])).sum)
    (List.range I.network.length) 0
  rw [key, zero_add, sum_map_range]
  apply Finset.sum_congr rfl
  intro d hd
  have hdn : d < I.network.length := Finset.mem_range.1 hd
  congr 1
  have hf1 : (buildFselPsd I.network N freqs).1.getD d [] =
      bandMask freqs (N.minF.getD d 0) (N.maxF.getD d 0) := by
    show ((List.range I.network.length).map
      (fun d => bandMask freqs (N.minF.getD d 0) (N.maxF.getD d 0))).getD d [] = _
    rw [getD_map_range _ _ hdn]
  have hf2 : (buildFselPsd I.network N freqs).2.getD d [] =
      (maskSelect freqs
        (bandMask freqs (N.minF.getD d 0) (N.maxF.getD d 0))).map
        (interp1d (N.dict (I.network.getD d ' '))) := by
    show ((List.range I.network.length).map
      (fun d => (maskSelect freqs
        ((buildFselPsd I.network N freqs).1.getD d [])).map
        (interp1d (N.dict (I.network.getD d ' '))))).getD d [] = _
    rw [getD_map_range _ _ hdn, hf1]
  rw [hf1, hf2, bandMask]
  have hzl : (projStrain (E.resp (I.network.getD d ' ') I.ra I.dec I.psi)
      hp hc).length = freqs.length := by
    rw [projStrain, List.length_zipWith, hlen, hfl]
    exact min_self _
  exact congrArg List.sum (sel_zip (fun hv p => normSq hv / p)
    (interp1d (N.dict (I.network.getD d ' ')))
    (fun f => decide (N.minF.getD d 0 < f) && decide (f < N.maxF.getD d 0))
    _ freqs hzl)

/-- Witness for C6 at the concrete initial evaluation of the `cSvc` run. -/
theorem C6_witness :
    (snrEval cSvc inpH (loadNoise inpH.network inpH.tables) dfq (1/10) 10).1 =
      snrFormulaSpec cSvc inpH (loadNoise inpH.network inpH.tables) dfq
        [(30, 0)] [(0, 0)] [100] :=
  C6_snr_formula cSvc inpH (loadNoise inpH.network inpH.tables) dfq (1/10) 10
    [(30, 0)] [(0, 0)] [100] (by with_unfolding_all decide) (by decide)

/-- A left `min` fold lands in the seeded list. -/
theorem foldl_min_mem (x : ℚ) (xs : List ℚ) : xs.foldl min x ∈ x :: xs := by
  induction xs generalizing x with
  | nil => simp
  | cons y ys ih =>
    rw [List.foldl_cons]
    rcases List.mem_cons.1 (ih (min x y)) with hm | hm
    · rw [hm]
      rcases min_choice x y with hxy | hxy <;> rw [hxy] <;> simp
    · simp [hm]

/-- A left `min` fold bounds the seed and every list element from below. -/
theorem foldl_min_bound (x : ℚ) (xs : List ℚ) :
    xs.foldl min x ≤ x ∧ ∀ y ∈ xs, xs.foldl min x ≤ y := by
  induction xs generalizing x with
  | nil => simp
  | cons z zs ih =>
    rw [List.foldl_cons]
    rcases ih (min x z) with ⟨h1, h2⟩
    refine ⟨le_trans h1 (min_le_left x z), ?_⟩
    intro y hy
    rcases List.mem_cons.1 hy with hy | hy
    · subst hy
      exact le_trans h1 (min_le_right x y)
    · exact h2 y hy

/-- `listMin` of a nonempty list is a member and a lower bound. -/
theorem listMin_spec {l : List ℚ} (h : l ≠ []) :
    listMin l ∈ l ∧ ∀ x ∈ l, listMin l ≤ x := by
  match l with
  | [] => exact absurd rfl h
  | x :: xs =>
    refine ⟨foldl_min_mem x xs, ?_⟩
    intro y hy
    rcases List.mem_cons.1 hy with hy | hy
    · exact hy ▸ (foldl_min_bound x xs).1
    · exact (foldl_min_bound x xs).2 y hy

/-- `listMax` of a nonempty list is a member and an upper bound. -/
theorem listMax_spec {l : List ℚ} (h : l ≠ []) :
    listMax l ∈ l ∧ ∀ x ∈ l, x ≤ listMax l := by
  match l with
  | [] => exact absurd rfl h
  | x :: xs =>
    refine ⟨foldl_max_mem x xs, ?_⟩
    intro y hy
    rcases List.mem_cons.1 hy with hy | hy
    · exact hy ▸ (foldl_max_bound x xs).1
    · exact (foldl_max_bound x xs).2 y hy

/-- `getD` through `map` below the length. -/
theorem getD_map {α β : Type} (f : α → β) (l : List α) (d : ℕ) (da : α)
    (db : β) (hd : d < l.length) :
    (l.map f).getD d db = f (l.getD d da) := by
  rw [getD_lt _ _ (by simpa using hd), getD_lt _ _ hd, List.getElem_map]

/-- Linear interpolation through a strictly `x`-sorted table reproduces the
table values at the sample points. -/
theorem interp1d_at_node : ∀ (tbl : List (ℚ × ℚ)),
    tbl.Pairwise (fun p q => p.1 < q.1) →
    ∀ p ∈ tbl, interp1d tbl p.1 = p.2
  | [], _, p, hp => absurd hp (List.not_mem_nil p)
  | [p0], _, p, hp => by
    rcases List.mem_singleton.1 hp with rfl
    rfl
  | p0 :: q0 :: rest, hs, p, hp => by
    have h01 : p0.1 < q0.1 := (List.pairwise_cons.1 hs).1 q0 (by simp)
    rcases List.mem_cons.1 hp with rfl | hp2
    · rw [interp1d, if_pos (le_of_lt h01)]
      simp
    · rcases List.mem_cons.1 hp2 with rfl | hp3
      · rw [interp1d, if_pos (le_refl _)]
        have hne : p.1 - p0.1 ≠ 0 := sub_ne_zero.2 h01.ne'
        rw [mul_div_assoc, div_self hne, mul_one]
        ring
      · have hq : q0.1 < p.1 := by
          have htail := (List.pairwise_cons.1 hs).2
          exact (List.pairwise_cons.1 htail).1 p hp3
        rw [interp1d, if_neg (not_le.2 hq)]
        exact interp1d_at_node (q0 :: rest) (List.pairwise_cons.1 hs).2 p
          (List.mem_cons.2 (Or.inr hp3))

/-- A fold of pointwise dictionary updates looks up to the value written at
the last matching key, or the base value when no key matches. -/
theorem foldl_update_getLast {β γ : Type} (g : β → γ) :
    ∀ (l : List (Char × β)) (base : Char → γ) (name : Char),
    (l.foldl (fun acc p => Function.update acc p.1 (g p.2)) base) name =
      ((l.filter (fun p => p.1 == name)).map
        (fun p => g p.2)).getLastD (base name) := by
  intro l
  induction l with
  | nil => intro base name; rfl
  | cons p l ih =>
    intro base name
    rw [List.foldl_cons, ih, List.filter_cons]
    by_cases hp : p.1 = name
    · rw [if_pos (by simpa using hp), List.map_cons, List.getLastD_cons]
      congr 1
      rw [hp, Function.update_same]
    · rw [if_neg (by simpa using hp)]
      congr 1
      exact Function.update_noteq (by simpa using Ne.symm hp) _ base

/-- `psdinterp_dict` looks up to the squared noise table written at the last
matching network position. -/
theorem psdDict_eq (network : List Char) (tables : List (List (ℚ × ℚ)))
    (name : Char) :
    psdDict network tables name =
      (((network.zip tables).filter (fun p => p.1 == name)).map
        (fun p => p.2.map (fun q => (q.1, q.2 * q.2)))).getLastD [] := by
  exact foldl_update_getLast
    (fun (t : List (ℚ × ℚ)) => t.map (fun q => (q.1, q.2 * q.2)))
    (network.zip tables) (fun _ => ([] : List (ℚ × ℚ))) name

/-- Filtering a zip by a key no list entry carries yields the empty list. -/
theorem zip_filter_nil :
    ∀ (ns : List Char) (ts : List (List (ℚ × ℚ))) (name : Char),
    (∀ k, k < ns.length → ns.getD k ' ' ≠ name) →
    (ns.zip ts).filter (fun p => p.1 == name) = [] := by
  intro ns
  induction ns with
  | nil => intro ts name h; simp
  | cons m ms ih =>
    intro ts name h
    match ts with
    | [] => simp
    | u :: us =>
      rw [List.zip_cons_cons, List.filter_cons,
        if_neg (by simpa using h 0 (by simp))]
      exact ih us name (fun k hk => h (k + 1) (by simpa using hk))

/-- The filtered-and-mapped zip of the network with its tables, filtered at
the identifier of position `j`, ends with the image of position `j`'s entry
whenever no later position carries the same identifier. -/
theorem zip_filter_map_getLastD {γ : Type} (g : Char × List (ℚ × ℚ) → γ) :
    ∀ (network : List Char) (tables : List (List (ℚ × ℚ))) (j : ℕ)
      (dflt : γ), j < network.length → tables.length = network.length →
    (∀ k, j < k → k < network.length →
      network.getD k ' ' ≠ network.getD j ' ') →
    ((((network.zip tables).filter
        (fun p => p.1 == network.getD j ' ')).map g).getLastD dflt) =
      g (network.getD j ' ', tables.getD j []) := by
  intro network
  induction network with
  | nil => intro tables j dflt hj; simp at hj
  | cons n ns ih =>
    intro tables j dflt hj hlen hlast
    match tables with
    | [] => simp at hlen
    | t :: ts =>
      have hlen2 : ts.length = ns.length := by simpa using hlen
      match j with
      | 0 =>
        rw [List.zip_cons_cons, List.filter_cons]
        have hrest : (ns.zip ts).filter
            (fun p => p.1 == (n :: ns).getD 0 ' ') = [] := by
          apply zip_filter_nil
          intro k hk
          have := hlast (k + 1) (by omega) (by simpa using hk)
          simpa using this
        rw [if_pos (by simp), hrest, List.map_cons]
        rfl
      | j + 1 =>
        rw [List.zip_cons_cons, List.filter_cons]
        have hlast2 : ∀ k, j < k → k < ns.length →
            ns.getD k ' ' ≠ ns.getD j ' ' := by
          intro k hk1 hk2
          have := hlast (k + 1) (by omega) (by simpa using hk2)
          simpa using this
        have hj2 : j < ns.length := by simpa using hj
        by_cases hn : n = (n :: ns).getD (j + 1) ' '
        · rw [if_pos (by simpa using hn), List.map_cons, List.getLastD_cons]
          exact ih ts j (g (n, t)) hj2 hlen2 hlast2
        · rw [if_neg (by simpa using hn)]
          exact ih ts j dflt hj2 hlen2 hlast2

/-- The per-position minimum usable frequencies of the loaded noise model. -/
theorem loadNoise_minF (network : List Char) (tables : List (List (ℚ × ℚ))) :
    (loadNoise network tables).minF
      = tables.map (fun t => max 10 (listMin (t.map (fun p => p.1)))) := rfl

/-- The per-position maximum usable frequencies of the loaded noise model. -/
theorem loadNoise_maxF (network : List Char) (tables : List (List (ℚ × ℚ))) :
    (loadNoise network tables).maxF
      = tables.map (fun t => min 5000 (listMax (t.map (fun p => p.1)))) := rfl

/-- C8: for every detector position `d` with a distinct identifier and a
nonempty strictly sorted noise table, the loader's usable band is the table's
frequency range clamped to [10, 5000] (the stated minimum is `max 10` of a
member of the sampled frequencies that bounds them all from below, the
stated maximum is `min 5000` of a member that bounds them all from above),
and the detector's interpolant maps each sampled frequency to the square of
the sampled strain. -/
theorem C8_noise_loader (network : List Char) (tables : List (List (ℚ × ℚ)))
    (d : ℕ) (hd : d < network.length)
    (hlen : tables.length = network.length)
    (hnd : network.Nodup)
    (hne : tables.getD d [] ≠ [])
    (hsort : (tables.getD d []).Pairwise (fun p q => p.1 < q.1)) :
    ((loadNoise network tables).minF.getD d 0
        = max 10 (listMin ((tables.getD d []).map (fun p => p.1))) ∧
      listMin ((tables.getD d []).map (fun p => p.1))
        ∈ (tables.getD d []).map (fun p => p.1) ∧
      ∀ x ∈ (tables.getD d []).map (fun p => p.1),
        listMin ((tables.getD d []).map (fun p => p.1)) ≤ x) ∧
    ((loadNoise network tables).maxF.getD d 0
        = min 5000 (listMax ((tables.getD d []).map (fun p => p.1))) ∧
      listMax ((tables.getD d []).map (fun p => p.1))
        ∈ (tables.getD d []).map (fun p => p.1) ∧
      ∀ x ∈ (tables.getD d []).map (fun p => p.1),
        x ≤ listMax ((tables.getD d []).map (fun p => p.1))) ∧
    ∀ p ∈ tables.getD d [],
      interp1d ((loadNoise network tables).dict (network.getD d ' ')) p.1
        = p.2 * p.2 := by
  have hd2 : d < tables.length := by rw [hlen]; exact hd
  have hmap_ne : (tables.getD d []).map (fun p => p.1) ≠ [] := by
    intro h
    exact hne (by simpa using h)
  obtain ⟨hmem, hbound⟩ := listMin_spec hmap_ne
  obtain ⟨hmem2, hbound2⟩ := listMax_spec hmap_ne
  have hlast : ∀ k, d < k → k < network.length →
      network.getD k ' ' ≠ network.getD d ' ' := by
    intro k hk1 hk2 heq
    rw [getD_lt _ _ hk2, getD_lt _ _ hd] at heq
    have := hnd.getElem_inj_iff.1 heq
    omega
  have hdict : (loadNoise network tables).dict (network.getD d ' ')
      = (tables.getD d []).map (fun q => (q.1, q.2 * q.2)) :=
    (psdDict_eq network tables (network.getD d ' ')).trans
      (zip_filter_map_getLastD
        (fun (p : Char × List (ℚ × ℚ)) => p.2.map (fun q => (q.1, q.2 * q.2)))
        network tables d [] hd hlen hlast)
  have hsort2 : ((tables.getD d []).map
      (fun q => (q.1, q.2 * q.2))).Pairwise (fun p q => p.1 < q.1) := by
    rw [List.pairwise_map]
    exact hsort
  refine ⟨⟨?_, hmem, hbound⟩, ⟨?_, hmem2, hbound2⟩, ?_⟩
  · have h := getD_map (fun t => max 10 (listMin (t.map (fun p => p.1))))
      tables d ([] : List (ℚ × ℚ)) (0 : ℚ) hd2
    rw [loadNoise_minF]
    simpa using h
  · have h := getD_map (fun t => min 5000 (listMax (t.map (fun p => p.1))))
      tables d ([] : List (ℚ × ℚ)) (0 : ℚ) hd2
    rw [loadNoise_maxF]
    simpa using h
  · intro p hp
    rw [hdict]
    have h := interp1d_at_node ((tables.getD d []).map
        (fun q => (q.1, q.2 * q.2))) hsort2 (p.1, p.2 * p.2)
      (List.mem_map_of_mem (fun q => (q.1, q.2 * q.2)) hp)
    simpa using h

/-- C10: when position `i` and a later position `j` of the network carry the
same identifier and `j` is its last occurrence, the per-position frequency
bounds at `i` still come from table `i`, but the identifier's dictionary
entry — hence the PSD column built for position `i` — is the squared table of
position `j`. -/
theorem C10_duplicate_identifiers (network : List Char)
    (tables : List (List (ℚ × ℚ))) (i j : ℕ) (freqs : List ℚ)
    (hij : i < j) (hj : j < network.length)
    (hlen : tables.length = network.length)
    (hsame : network.getD i ' ' = network.getD j ' ')
    (hlast : ∀ k, j < k → k < network.length →
      network.getD k ' ' ≠ network.getD j ' ') :
    (loadNoise network tables).minF.getD i 0
        = max 10 (listMin ((tables.getD i []).map (fun p => p.1))) ∧
    (loadNoise network tables).maxF.getD i 0
        = min 5000 (listMax ((tables.getD i []).map (fun p => p.1))) ∧
    (loadNoise network tables).dict (network.getD i ' ')
        = (tables.getD j []).map (fun q => (q.1, q.2 * q.2)) ∧
    (buildFselPsd network (loadNoise network tables) freqs).2.getD i []
        = (maskSelect freqs (bandMask freqs
            ((loadNoise network tables).minF.getD i 0)
            ((loadNoise network tables).maxF.getD i 0))).map
          (interp1d ((tables.getD j []).map (fun q => (q.1, q.2 * q.2)))) := by
  have hi : i < network.length := lt_trans hij hj
  have hi2 : i < tables.length := by rw [hlen]; exact hi
  have hdict : (loadNoise network tables).dict (network.getD i ' ')
      = (tables.getD j []).map (fun q => (q.1, q.2 * q.2)) := by
    rw [hsame]
    exact (psdDict_eq network tables (network.getD j ' ')).trans
      (zip_filter_map_getLastD
        (fun (p : Char × List (ℚ × ℚ)) => p.2.map (fun q => (q.1, q.2 * q.2)))
        network tables j [] hj hlen hlast)
  have hfsel := getD_map_range
    (fun e => bandMask freqs ((loadNoise network tables).minF.getD e 0)
      ((loadNoise network tables).maxF.getD e 0)) ([] : List Bool) hi
  have hpsd := getD_map_range
    (fun e => (maskSelect freqs (((List.range network.length).map
        (fun k => bandMask freqs ((loadNoise network tables).minF.getD k 0)
          ((loadNoise network tables).maxF.getD k 0))).getD e [])).map
      (interp1d ((loadNoise network tables).dict (network.getD e ' '))))
    ([] : List ℚ) hi
  refine ⟨?_, ?_, hdict, ?_⟩
  · have h := getD_map (fun t => max 10 (listMin (t.map (fun p => p.1))))
      tables i ([] : List (ℚ × ℚ)) (0 : ℚ) hi2
    rw [loadNoise_minF]
    simpa using h
  · have h := getD_map (fun t => min 5000 (listMax (t.map (fun p => p.1))))
      tables i ([] : List (ℚ × ℚ)) (0 : ℚ) hi2
    rw [loadNoise_maxF]
    simpa using h
  · refine hpsd.trans ?_
    beta_reduce
    rw [hfsel, hdict]

/-- Witness for C8 at the two-detector network H, L with tables `tblStd` and
`tblA`, at position 1. -/
theorem C8_witness :
    ((loadNoise ['H', 'L'] [tblStd, tblA]).minF.getD 1 0
        = max 10 (listMin (([tblStd, tblA].getD 1 []).map (fun p => p.1))) ∧
      listMin (([tblStd, tblA].getD 1 []).map (fun p => p.1))
        ∈ ([tblStd, tblA].getD 1 []).map (fun p => p.1) ∧
      ∀ x ∈ ([tblStd, tblA].getD 1 []).map (fun p => p.1),
        listMin (([tblStd, tblA].getD 1 []).map (fun p => p.1)) ≤ x) ∧
    ((loadNoise ['H', 'L'] [tblStd, tblA]).maxF.getD 1 0
        = min 5000 (listMax (([tblStd, tblA].getD 1 []).map (fun p => p.1))) ∧
      listMax (([tblStd, tblA].getD 1 []).map (fun p => p.1))
        ∈ ([tblStd, tblA].getD 1 []).map (fun p => p.1) ∧
      ∀ x ∈ ([tblStd, tblA].getD 1 []).map (fun p => p.1),
        x ≤ listMax (([tblStd, tblA].getD 1 []).map (fun p => p.1))) ∧
    ∀ p ∈ [tblStd, tblA].getD 1 [],
      interp1d ((loadNoise ['H', 'L'] [tblStd, tblA]).dict
        (['H', 'L'].getD 1 ' ')) p.1 = p.2 * p.2 :=
  C8_noise_loader ['H', 'L'] [tblStd, tblA] 1
    (by with_unfolding_all decide)
    (by with_unfolding_all rfl)
    (by decide)
    (by with_unfolding_all decide)
    (by with_unfolding_all decide)

/-- Witness for C10 at the network H, H with distinct tables `tblA`, `tblB`:
position 0's entry resolves to the squared table of position 1. -/
theorem C10_witness :
    (loadNoise ['H', 'H'] [tblA, tblB]).minF.getD 0 0
        = max 10 (listMin (([tblA, tblB].getD 0 []).map (fun p => p.1))) ∧
    (loadNoise ['H', 'H'] [tblA, tblB]).maxF.getD 0 0
        = min 5000 (listMax (([tblA, tblB].getD 0 []).map (fun p => p.1))) ∧
    (loadNoise ['H', 'H'] [tblA, tblB]).dict (['H', 'H'].getD 0 ' ')
        = ([tblA, tblB].getD 1 []).map (fun q => (q.1, q.2 * q.2)) ∧
    (buildFselPsd ['H', 'H'] (loadNoise ['H', 'H'] [tblA, tblB]) [50]).2.getD
        0 []
        = (maskSelect [50] (bandMask [50]
            ((loadNoise ['H', 'H'] [tblA, tblB]).minF.getD 0 0)
            ((loadNoise ['H', 'H'] [tblA, tblB]).maxF.getD 0 0))).map
          (interp1d (([tblA, tblB].getD 1 []).map
            (fun q => (q.1, q.2 * q.2)))) :=
  C10_duplicate_identifiers ['H', 'H'] [tblA, tblB] 0 1 [50]
    (by decide)
    (by with_unfolding_all decide)
    (by with_unfolding_all rfl)
    rfl
    (by
      intro k h1 h2
      exfalso
      simp only [List.length_cons, List.length_nil] at h2
      omega)
